import Mathlib

/-!
Verification of the CodeChat Project Indexing Core against its specification.

This file shallowly embeds the relevant parts of the repository:

  * src/daemon/codechat/vector_db.py  (class VectorDB)
  * src/daemon/codechat/indexer.py    (class Indexer)
  * src/daemon/codechat/dep_graph.py  (class DepGraph)

Modelling conventions:

  * Python dicts become insertion-ordered association lists with helpers
    alookup / aerase / ainsert; dict assignment replaces in place, deletion
    filters the key out.
  * File bytes are lists of naturals; Python text (str) is a list of
    code points.  Path.read_text(encoding="utf-8") is modelled as strict
    UTF-8 decoding followed by universal-newline translation, exactly as
    CPython's text mode performs it.
  * hashlib.sha256(...).hexdigest() is idealised as an injective digest; the
    model uses the identity function on the byte string that the code feeds
    to the hash.  No theorem below relies on injectivity of the digest, and
    the counterexamples only rely on the (true) fact that equal inputs give
    equal digests.
  * The FAISS IndexIDMap(IndexFlatL2) is a list of (id, vector) pairs in
    insertion order; remove_ids filters by id and compacts preserving order,
    ntotal is the length, and reconstruct on the inner flat index fetches by
    position, exactly as vector_db.py calls it.  Vector components are never
    computed with, so the float payload is modelled with an opaque list of
    integers; search never writes any field, so its state effect is the
    identity.
  * External effects (filesystem contents, .gitignore relevance, the
    embedding HTTP call, tree-sitter parse results) are explicit environment
    parameters; a raised exception from the embedding client is an Option
    none result.
-/

/-! ## Association list helpers (Python dict model) -/

/-- Lookup of a key in an insertion-ordered association list. -/
def alookup {α β : Type} [DecidableEq α] (l : List (α × β)) (k : α) : Option β :=
  match l with
  | [] => none
  | (k', v) :: t => if k' = k then some v else alookup t k

/-- Deletion of a key from an association list (Python `del d[k]`). -/
def aerase {α β : Type} [DecidableEq α] (l : List (α × β)) (k : α) : List (α × β) :=
  l.filter (fun p => p.1 ≠ k)

/-- Assignment `d[k] = v` on a Python dict: replaces the value in place when
the key is present, appends otherwise. -/
def ainsert {α β : Type} [DecidableEq α] : List (α × β) → α → β → List (α × β)
  | [], k, v => [(k, v)]
  | (k', v') :: t, k, v => if k' = k then (k, v) :: t else (k', v') :: ainsert t k v

/-! ## Python text model: strict UTF-8 decoding and universal newlines

`Path.read_text(encoding="utf-8")` opens the file in text mode: the raw bytes
are decoded with the strict UTF-8 codec and the result undergoes universal
newline translation (each of "\r\n" and "\r" becomes "\n").  Bytes are
naturals < 256; text is a list of Unicode code points. -/

/-- Strict UTF-8 decoding of a byte list into code points; `none` models a
raised UnicodeDecodeError (invalid lead or continuation bytes, overlong
encodings, surrogates, out-of-range code points, truncated sequences). -/
def utf8Decode : List Nat → Option (List Nat)
  | [] => some []
  | b :: rest =>
    if b < 0x80 then
      match utf8Decode rest with
      | some cps => some (b :: cps)
      | none => none
    else if b < 0xC2 then
      none
    else if b < 0xE0 then
      match rest with
      | c1 :: rest2 =>
        if 0x80 ≤ c1 ∧ c1 < 0xC0 then
          match utf8Decode rest2 with
          | some cps => some (((b - 0xC0) * 64 + (c1 - 0x80)) :: cps)
          | none => none
        else none
      | [] => none
    else if b < 0xF0 then
      match rest with
      | c1 :: c2 :: rest3 =>
        if 0x80 ≤ c1 ∧ c1 < 0xC0 ∧ 0x80 ≤ c2 ∧ c2 < 0xC0 then
          let cp := (b - 0xE0) * 4096 + (c1 - 0x80) * 64 + (c2 - 0x80)
          if cp < 0x800 ∨ (0xD800 ≤ cp ∧ cp < 0xE000) then none
          else
            match utf8Decode rest3 with
            | some cps => some (cp :: cps)
            | none => none
        else none
      | _ => none
    else if b < 0xF5 then
      match rest with
      | c1 :: c2 :: c3 :: rest4 =>
        if 0x80 ≤ c1 ∧ c1 < 0xC0 ∧ 0x80 ≤ c2 ∧ c2 < 0xC0 ∧ 0x80 ≤ c3 ∧ c3 < 0xC0 then
          let cp := (b - 0xF0) * 262144 + (c1 - 0x80) * 4096 + (c2 - 0x80) * 64 + (c3 - 0x80)
          if cp < 0x10000 ∨ 0x110000 ≤ cp then none
          else
            match utf8Decode rest4 with
            | some cps => some (cp :: cps)
            | none => none
        else none
      | _ => none
    else none

/-- UTF-8 encoding of one code point. -/
def utf8EncodeChar (c : Nat) : List Nat :=
  if c < 0x80 then [c]
  else if c < 0x800 then [0xC0 + c / 64, 0x80 + c % 64]
  else if c < 0x10000 then [0xE0 + c / 4096, 0x80 + (c / 64) % 64, 0x80 + c % 64]
  else [0xF0 + c / 262144, 0x80 + (c / 4096) % 64, 0x80 + (c / 64) % 64, 0x80 + c % 64]

/-- UTF-8 encoding of a text (`text.encode("utf-8")`). -/
def utf8Encode (l : List Nat) : List Nat :=
  (l.map utf8EncodeChar).flatten

/-- Universal newline translation of CPython text mode: "\r\n" and "\r" both
become "\n" (code points 13, 10). -/
def universalNewlines : List Nat → List Nat
  | [] => []
  | 13 :: 10 :: rest => 10 :: universalNewlines rest
  | 13 :: rest => 10 :: universalNewlines rest
  | c :: rest => c :: universalNewlines rest

/-- Model of `Path.read_text(encoding="utf-8")` applied to the raw file
bytes: strict UTF-8 decoding followed by universal newline translation;
`none` models a raised UnicodeDecodeError. -/
def pythonReadText (bytes : List Nat) : Option (List Nat) :=
  match utf8Decode bytes with
  | some cps => some (universalNewlines cps)
  | none => none

/-- Idealised `hashlib.sha256(b).hexdigest()`.  The digest is modelled as the
identity on the hashed byte string: the theorems below use only that equal
inputs produce equal digests (true of SHA-256), and the idealisation grants
the collision-freedom the specification implicitly assumes.  No theorem in
this file relies on properties of the real compression function. -/
def sha256hex (b : List Nat) : List Nat := b

/-! ## VectorDB (src/daemon/codechat/vector_db.py)

State of a `VectorDB` object.  `index` models the FAISS
`IndexIDMap(IndexFlatL2(dim))`: the (custom id, vector) pairs in storage
order; `ntotal` is its length; `remove_ids` filters by id preserving order;
`reconstruct` on the inner flat index fetches by *position*, exactly as
`get_vector_by_path` invokes it.  Vector float payloads are opaque
(`List Int`); no claim computes with their values.  `search` reads but never
writes any field, so its state effect is the identity and its float-valued
ranking is not modelled. -/

/-- One metadata record: the dict `{"path": ..., "hash": ...}`. -/
structure FileMeta where
  path : String
  hash : List Nat
  deriving DecidableEq, Repr

/-- A stored embedding vector (opaque float payload). -/
abbrev EmbVec := List Int

/-- In-memory state of a VectorDB instance. -/
structure VectorDB where
  dim : Nat
  index : List (Nat × EmbVec)
  meta_data : List (Nat × FileMeta)
  pathToFaissId : List (String × Nat)
  nextFaissId : Nat
  deriving DecidableEq, Repr

/-- A fresh, empty store of the given dimension (the state of `__init__`
when no persisted artifacts exist on disk). -/
def freshVDB (dim : Nat) : VectorDB :=
  { dim := dim, index := [], meta_data := [], pathToFaissId := [], nextFaissId := 0 }

/-- VectorDB.remove_by_path.  The FAISS `IndexIDMap.remove_ids` call removes
matching ids from the index and does not raise for any input, so the
`except` branch of the Python method (a best-effort map cleanup) is
unreachable and the success branch is modelled.  Returns the new state and
the boolean result. -/
def VectorDB.remove_by_path (db : VectorDB) (path_str : String) : VectorDB × Bool :=
  match alookup db.pathToFaissId path_str with
  | some faiss_id =>
    ({ db with
        index := db.index.filter (fun pr => pr.1 ≠ faiss_id),
        meta_data := aerase db.meta_data faiss_id,
        pathToFaissId := aerase db.pathToFaissId path_str }, true)
  | none => (db, false)

/-- VectorDB.add: if the path is already present, first remove it; then
allocate the next FAISS id, append the vector to the index and update both
maps. -/
def VectorDB.add (db : VectorDB) (path_str : String) (file_hash : List Nat)
    (vector : EmbVec) : VectorDB :=
  let db1 := if (alookup db.pathToFaissId path_str).isSome then
      (db.remove_by_path path_str).1
    else db
  let faiss_id := db1.nextFaissId
  { db1 with
      nextFaissId := faiss_id + 1,
      index := db1.index ++ [(faiss_id, vector)],
      meta_data := ainsert db1.meta_data faiss_id ⟨path_str, file_hash⟩,
      pathToFaissId := ainsert db1.pathToFaissId path_str faiss_id }

/-- VectorDB.get_meta_by_path. -/
def VectorDB.get_meta_by_path (db : VectorDB) (path_str : String) : Option FileMeta :=
  match alookup db.pathToFaissId path_str with
  | some faiss_id => alookup db.meta_data faiss_id
  | none => none

/-- VectorDB.get_vector_by_path.  Faithful to the source: the stored FAISS id
is validated against `ntotal` (out-of-range ids trigger a stale-mapping
cleanup of both maps), and `reconstruct` is invoked on the *inner* flat
index, which fetches by position.  Returns the possibly-cleaned state and
the reconstructed vector. -/
def VectorDB.get_vector_by_path (db : VectorDB) (path_str : String) :
    VectorDB × Option EmbVec :=
  match alookup db.pathToFaissId path_str with
  | some faiss_id =>
    if 0 < db.index.length then
      if db.index.length ≤ faiss_id then
        ({ db with
            meta_data := aerase db.meta_data faiss_id,
            pathToFaissId := aerase db.pathToFaissId path_str }, none)
      else
        match (db.index.get? faiss_id).map Prod.snd with
        | some v => if 0 < v.length then (db, some v) else (db, none)
        | none => (db, none)
    else (db, none)
  | none => (db, none)

/-- VectorDB.get_all_meta_for_rebuild: a path-keyed copy of the metadata. -/
def VectorDB.get_all_meta_for_rebuild (db : VectorDB) : List (String × FileMeta) :=
  db.pathToFaissId.foldl
    (fun acc pr =>
      match alookup db.meta_data pr.2 with
      | some m => acc ++ [(pr.1, m)]
      | none => acc) []

/-- The record `flush()` persists: the index binary (faiss.idx, carrying the
inner index dimension) plus the meta_plus.pkl sidecar. -/
structure DiskRecord where
  dim : Nat
  index : List (Nat × EmbVec)
  meta_data : List (Nat × FileMeta)
  pathToFaissId : List (String × Nat)
  nextFaissId : Nat
  deriving DecidableEq, Repr

/-- VectorDB.flush: writes both artifacts; the in-memory state is untouched. -/
def VectorDB.flushRecord (db : VectorDB) : DiskRecord :=
  ⟨db.dim, db.index, db.meta_data, db.pathToFaissId, db.nextFaissId⟩

/-- VectorDB._validate_and_cleanup_stale_mappings: drops every path whose
stored FAISS id is ≥ ntotal, and the metadata of those ids. -/
def VectorDB.cleanupStale (db : VectorDB) : VectorDB :=
  let stale := db.pathToFaissId.filter (fun pr => db.index.length ≤ pr.2)
  { db with
      pathToFaissId := db.pathToFaissId.filter (fun pr => pr.2 < db.index.length),
      meta_data := db.meta_data.filter (fun m => ¬ stale.any (fun pr => pr.2 = m.1)) }

/-- VectorDB construction (`__init__` + `_load` + cleanup): with no disk
artifacts the store starts empty; with a persisted record whose index
dimension matches, the record is restored and the stale-mapping cleanup
runs; on a dimension mismatch everything is re-initialised empty. -/
def VectorDB.construct (dim : Nat) (disk : Option DiskRecord) : VectorDB :=
  let db0 : VectorDB :=
    match disk with
    | none => freshVDB dim
    | some r =>
      if r.dim = dim then
        { dim := dim, index := r.index, meta_data := r.meta_data,
          pathToFaissId := r.pathToFaissId, nextFaissId := r.nextFaissId }
      else freshVDB dim
  db0.cleanupStale

/-- Flush followed by construction-time load from the flushed artifacts. -/
def VectorDB.reload (db : VectorDB) : VectorDB :=
  VectorDB.construct db.dim (some db.flushRecord)

/-! ## Indexer (src/daemon/codechat/indexer.py)

The indexer's external collaborators are bundled in an environment:
`relevant` is the outcome of `_is_relevant_path` (a read-only predicate over
the filesystem, the project root and the git ignore rules), `underRoot` the
deleted-event root check, `fs` the raw bytes obtained by reading a path
(`none` models an OSError), and `embed` the OpenAI embeddings call on the
input text (`none` models a raised exception; the call is deterministic
within the window considered by each theorem).  Event processing returns the
new store state together with the list of texts passed to the embedding
client, so theorems can speak about which embedding calls were performed. -/

/-- External collaborators of the Indexer. -/
structure IdxEnv where
  relevant : String → Bool
  underRoot : String → Bool
  fs : String → Option (List Nat)
  embed : List Nat → Option EmbVec

/-- MAX_CHARS from indexer.py. -/
def MAX_CHARS : Nat := 8000

/-- The stored content hash of a decoded text: the code computes
`hashlib.sha256(full_text_content.encode("utf-8")).hexdigest()`. -/
def contentHashOf (text : List Nat) : List Nat :=
  sha256hex (utf8Encode text)

/-- The truthiness test `existing_meta and existing_meta.get("hash") == current_hash`
of process_file_event (metadata dicts are never empty, so truthiness is
presence). -/
def metaHashMatches (db : VectorDB) (path_str : String) (current_hash : List Nat) : Bool :=
  match db.get_meta_by_path path_str with
  | some m => decide (m.hash = current_hash)
  | none => false

/-- The created/modified branch of Indexer.process_file_event.  Returns the
new store state and the inputs of the embedding calls made.  A failed
embedding call is caught by the handler around the create/add/flush block,
which logs and falls through, leaving the path removed (the removal happens
before the try block). -/
def processCreatedModified (env : IdxEnv) (db : VectorDB) (src_path : String) :
    VectorDB × List (List Nat) :=
  if env.relevant src_path then
    match (env.fs src_path).bind pythonReadText with
    | none => (db, [])
    | some full_text =>
      let current_hash := contentHashOf full_text
      let text_for_embedding := full_text.take MAX_CHARS
      if metaHashMatches db src_path current_hash then (db, [])
      else
        let db1 := (db.remove_by_path src_path).1
        match env.embed text_for_embedding with
        | some vec => ((db1.add src_path current_hash vec), [text_for_embedding])
        | none => (db1, [text_for_embedding])
  else (db, [])

/-- The deleted branch of Indexer.process_file_event. -/
def processDeleted (env : IdxEnv) (db : VectorDB) (src_path : String) :
    VectorDB × List (List Nat) :=
  if env.underRoot src_path then ((db.remove_by_path src_path).1, [])
  else (db, [])

/-- A filesystem event as delivered to process_file_event. -/
inductive FEvent where
  | created (src : String)
  | modified (src : String)
  | deleted (src : String)
  | moved (src : String) (dst : String)
  deriving DecidableEq, Repr

/-- Indexer.process_file_event: dispatches on the event kind; a move is a
delete of the source followed by a create of the destination. -/
def processFileEvent (env : IdxEnv) (db : VectorDB) : FEvent → VectorDB × List (List Nat)
  | .created src => processCreatedModified env db src
  | .modified src => processCreatedModified env db src
  | .deleted src => processDeleted env db src
  | .moved src dst =>
    let r1 := processDeleted env db src
    let r2 := processCreatedModified env r1.1 dst
    (r2.1, r1.2 ++ r2.2)

/-- Whether the rebuild snapshot holds this path with the current hash
(`old_meta_item and old_meta_item.get("hash") == current_hash`). -/
def snapHashMatches (snap : List (String × FileMeta)) (path_str : String)
    (current_hash : List Nat) : Bool :=
  match alookup snap path_str with
  | some m => decide (m.hash = current_hash)
  | none => false

/-- The per-file loop of Indexer.build_index.  `vdb` is the live store (its
`get_vector_by_path` may perform stale-mapping cleanup, so it is threaded),
`temp` the new store under construction, `calls` the embedding inputs so
far.  An embedding exception is uncaught inside build_index and propagates,
modelled by a `none` overall result. -/
def buildLoop (env : IdxEnv) (snap : List (String × FileMeta)) :
    List String → VectorDB → VectorDB → List (List Nat) →
    Option (VectorDB × VectorDB × List (List Nat))
  | [], vdb, temp, calls => some (vdb, temp, calls)
  | p :: rest, vdb, temp, calls =>
    match (env.fs p).bind pythonReadText with
    | none => buildLoop env snap rest vdb temp calls
    | some full_text =>
      let current_hash := contentHashOf full_text
      let text_for_embedding := full_text.take MAX_CHARS
      if snapHashMatches snap p current_hash then
        let r := vdb.get_vector_by_path p
        match r.2 with
        | some vector_list =>
          buildLoop env snap rest r.1 (temp.add p current_hash vector_list) calls
        | none =>
          match env.embed text_for_embedding with
          | some vec =>
            buildLoop env snap rest r.1 (temp.add p current_hash vec)
              (calls ++ [text_for_embedding])
          | none => none
      else
        match env.embed text_for_embedding with
        | some vec =>
          buildLoop env snap rest vdb (temp.add p current_hash vec)
            (calls ++ [text_for_embedding])
        | none => none

/-- Indexer.build_index restricted to the store rebuild: snapshots the live
store, processes the discovered files into a fresh store of the same
dimension, and on success replaces the live store with it.  `none` models an
uncaught embedding exception escaping build_index. -/
def buildIndex (env : IdxEnv) (db : VectorDB) (project_files : List String) :
    Option (VectorDB × List (List Nat)) :=
  match buildLoop env db.get_all_meta_for_rebuild project_files db (freshVDB db.dim) [] with
  | some (_, temp, calls) => some (temp, calls)
  | none => none

/-! ## DepGraph (src/daemon/codechat/dep_graph.py)

Strings are lists of characters.  An absolute filesystem path is its list of
pathlib parts below the root (`/a/b` is `[a, b]`); segments are nonempty and
slash-free.  A file identifier — in the source the string
`str(path.relative_to(root))` or `str(path)` — is a pair of the
absolute-path flag and the list of parts: the string form is the parts
joined with "/", prefixed with "/" when the flag is set, so id equality
coincides with string equality.  The per-build memoisation dict
`import_cache` (cleared on every build, keyed by the f-string
`"{import_path}:{from_file}"`) is omitted: it caches exactly the value the
resolver recomputes.  tree-sitter extraction (`_parse_raw_imports`) is an
environment function supplying the raw import strings of a file, and
`Path.exists` is an environment predicate. -/

/-- A Python string as a list of characters. -/
abbrev Str := List Char

/-- An absolute filesystem path as its pathlib parts below the root. -/
abbrev PathT := List Str

/-- A file identifier: (starts with "/", parts). -/
abbrev FileId := Bool × List Str

/-- Membership of a character in a string (Python `c in s`). -/
def strContains (s : Str) (c : Char) : Bool :=
  s.any (fun x => x == c)

/-- Python `s.split(sep)` for a single-character separator. -/
def splitOnChar (c : Char) : Str → List Str
  | [] => [[]]
  | x :: rest =>
    if x = c then [] :: splitOnChar c rest
    else
      match splitOnChar c rest with
      | h :: t => (x :: h) :: t
      | [] => [[x]]

/-- Fuel-driven worker for `removeAll`; the fuel (initially the string
length) only serves to make the left-to-right scan structurally
terminating and never runs out. -/
def removeAllFuel (pat : Str) : Nat → Str → Str
  | _, [] => []
  | 0, s => s
  | fuel + 1, c :: rest =>
    if pat ≠ [] ∧ pat.isPrefixOf (c :: rest) then
      removeAllFuel pat fuel ((c :: rest).drop pat.length)
    else
      c :: removeAllFuel pat fuel rest

/-- Python `s.replace(pat, "")`: left-to-right removal of every
non-overlapping occurrence of `pat`. -/
def removeAll (pat s : Str) : Str :=
  removeAllFuel pat s.length s

/-- The cleanup `import_path.replace(".js", "").replace(".ts", "").replace(".css", "")`
of _import_matches_file_id. -/
def stripExts (import_path : Str) : Str :=
  removeAll ".css".toList (removeAll ".ts".toList (removeAll ".js".toList import_path))

/-- pathlib parsing of a string into parts: split on "/", dropping empty
and "." components. -/
def parsePathParts (s : Str) : List Str :=
  (splitOnChar '/' s).filter (fun seg => ¬ (seg = [] ∨ seg = ['.']))

/-- `pathlib.Path(s)` of an id-like string: the absolute flag and the parts. -/
def parsePath (s : Str) : FileId :=
  (decide (s.head? = some '/'), parsePathParts s)

/-- The `.name` of an id: its last part ("" for "/" and "."). -/
def idName (fid : FileId) : Str :=
  (fid.2.getLast?).getD []

/-- Index of the last "." of a name, if any. -/
def rfindDotIdx (n : Str) : Option Nat :=
  match n.reverse.findIdx? (fun c => c == '.') with
  | some k => some (n.length - 1 - k)
  | none => none

/-- pathlib `.stem` of a name: the name with its suffix removed; the suffix
is nonempty only when the last dot is neither the first nor the last
character. -/
def nameStem (n : Str) : Str :=
  match rfindDotIdx n with
  | some i => if 0 < i ∧ i < n.length - 1 then n.take i else n
  | none => n

/-- `pathlib.Path(file_id).stem`. -/
def idStem (fid : FileId) : Str :=
  nameStem (idName fid)

/-- `pathlib.Path(file_id).with_suffix("")`: the last part is replaced by its
stem.  (pathlib raises on an empty name; theorems about this function carry
well-formedness hypotheses keeping them in the exception-free region.) -/
def idWithSuffixEmpty (fid : FileId) : FileId :=
  (fid.1, fid.2.dropLast ++ [nameStem (idName fid)])

/-- Python `"/" in file_id` on the string form of an id. -/
def containsSlashId (fid : FileId) : Bool :=
  fid.1 || decide (2 ≤ fid.2.length)

/-- DepGraph._import_matches_file_id: extension-stripped comparison with a
conservative root-level rule for bare imports. -/
def importMatchesFileId (import_path : Str) (file_id : FileId) : Bool :=
  let clean_import := stripExts import_path
  if (strContains clean_import '/' = false ∧ strContains clean_import '.' = false)
      ∧ idStem file_id = clean_import then
    !(containsSlashId file_id)
  else
    decide (idWithSuffixEmpty file_id = parsePath clean_import)

/-- The extension tuple of _resolve_relative_import's endswith tests. -/
def srcSuffixes : List Str :=
  [".js".toList, ".ts".toList, ".py".toList, ".jsx".toList, ".tsx".toList]

/-- `clean_name.endswith((".js", ".ts", ".py", ".jsx", ".tsx"))`. -/
def endsWithSrcSuffix (s : Str) : Bool :=
  srcSuffixes.any (fun suf => suf.isSuffixOf s)

/-- Python `s.lstrip("./")`: strip leading "." and "/" characters. -/
def lstripDotSlash : Str → Str
  | [] => []
  | c :: rest => if c = '.' ∨ c = '/' then lstripDotSlash rest else c :: rest

/-- The number of leading dots (`len(s) - len(s.lstrip("."))`). -/
def leadingDots (s : Str) : Nat :=
  (s.takeWhile (fun c => c == '.')).length

/-- `.parent` iterated: pathlib's parent of the filesystem root is itself. -/
def ascend : Nat → PathT → PathT
  | 0, p => p
  | n + 1, p => ascend n p.dropLast

/-- `dir / s` for a pathlib join with a (possibly multi-segment) string. -/
def joinPath (dir : PathT) (s : Str) : PathT :=
  dir ++ parsePathParts s

/-- DepGraph._resolve_relative_import: ascend `max(0, dots − 1)` levels above
the source file's directory, then try the exact name when it carries a
recognised suffix, else the name with each known extension and the
package-style `<name>/__init__.py`; keep candidates that exist and are not
the source file. -/
def resolveRelativeImport (pathExists : PathT → Bool) (import_path : Str)
    (from_file : PathT) : List PathT :=
  let clean_name := lstripDotSlash import_path
  let dot_count := leadingDots import_path
  let start_dir := ascend (dot_count - 1) from_file.dropLast
  let potential_paths :=
    if endsWithSrcSuffix clean_name then
      [joinPath start_dir clean_name]
    else
      [ joinPath start_dir (clean_name ++ ".py".toList),
        joinPath (joinPath start_dir clean_name) "__init__.py".toList,
        joinPath start_dir (clean_name ++ ".ts".toList),
        joinPath start_dir (clean_name ++ ".js".toList),
        joinPath start_dir (clean_name ++ ".jsx".toList),
        joinPath start_dir (clean_name ++ ".tsx".toList) ]
  potential_paths.filter (fun p => pathExists p ∧ p ≠ from_file)

/-- `import_path.split(".")[-1]`. -/
def lastDotComponent (import_path : Str) : Str :=
  ((splitOnChar '.' import_path).getLast?).getD []

/-- DepGraph._resolve_import_path (the memoisation cache omitted, see the
section comment): union of the relative strategy (only for imports starting
with "."), the exact file-id match, and the last-component match for dotted
non-relative imports; the latter two never match the source file itself. -/
def resolveImportPath (file_map : List (FileId × PathT)) (pathExists : PathT → Bool)
    (import_path : Str) (from_file : PathT) : List PathT :=
  let s1 :=
    if import_path.head? = some '.' then
      resolveRelativeImport pathExists import_path from_file
    else []
  let s2 :=
    (file_map.filter (fun pr => pr.2 ≠ from_file ∧ importMatchesFileId import_path pr.1)).map
      Prod.snd
  let s3 :=
    if strContains import_path '.' = true ∧ ¬ (import_path.head? = some '.') then
      (file_map.filter (fun pr => pr.2 ≠ from_file ∧ idStem pr.1 = lastDotComponent import_path)).map
        Prod.snd
    else []
  s1 ++ s2 ++ s3

/-- External collaborators of DepGraph: tree-sitter raw import extraction
per file, and `Path.exists`. -/
structure DEnv where
  rawImports : PathT → List Str
  pathExists : PathT → Bool

/-- DepGraph state: the networkx DiGraph (nodes and edge list), the project
root and the id → path file map. -/
structure DepGraph where
  nodes : List FileId
  edges : List (FileId × FileId)
  projectRoot : Option PathT
  fileMap : List (FileId × PathT)

/-- A fresh DepGraph (constructor, with an optional supplied root). -/
def DepGraph.initial (root : Option PathT) : DepGraph :=
  { nodes := [], edges := [], projectRoot := root, fileMap := [] }

/-- DepGraph._get_file_id: the path relative to the project root when it lies
under it, the absolute path otherwise. -/
def getFileId (root : Option PathT) (p : PathT) : FileId :=
  match root with
  | some r => if r.isPrefixOf p then (false, p.drop r.length) else (true, p)
  | none => (true, p)

/-- DepGraph._resolve_local_imports: empty without a project root, else the
union of the resolutions of all raw imports of the file. -/
def resolveLocalImports (env : DEnv) (root : Option PathT)
    (file_map : List (FileId × PathT)) (file_path : PathT) : List PathT :=
  match root with
  | none => []
  | some _ =>
    ((env.rawImports file_path).map
      (fun imp => resolveImportPath file_map env.pathExists imp file_path)).flatten

/-- networkx `add_node`: a set insert. -/
def insertNode (l : List FileId) (x : FileId) : List FileId :=
  if x ∈ l then l else l ++ [x]

/-- networkx `DiGraph.add_edge`: inserts missing endpoints as nodes and the
edge into the edge set. -/
def addEdgeNX (st : DepGraph) (u v : FileId) : DepGraph :=
  { st with
      nodes := insertNode (insertNode st.nodes u) v,
      edges := if (u, v) ∈ st.edges then st.edges else st.edges ++ [(u, v)] }

/-- The edge-adding loop shared by build and add_or_update_file: each resolved
dependency path contributes an edge only when its id is a key of the file
map. -/
def addDepEdges (src_id : FileId) : List PathT → DepGraph → DepGraph
  | [], st => st
  | d :: ds, st =>
    let dep_id := getFileId st.projectRoot d
    let st' := if (alookup st.fileMap dep_id).isSome then addEdgeNX st src_id dep_id else st
    addDepEdges src_id ds st'

/-- Longest common prefix of two part lists. -/
def commonPrefix : PathT → PathT → PathT
  | [], _ => []
  | _, [] => []
  | a :: as1, b :: bs1 => if a = b then a :: commonPrefix as1 bs1 else []

/-- The fold of _infer_project_root over the remaining files' parent parts;
an empty running prefix short-circuits to the filesystem root. -/
def inferLoop (common : PathT) : List PathT → PathT
  | [] => common
  | f :: rest =>
    let c := commonPrefix common f.dropLast
    if c = [] then [] else inferLoop c rest

/-- DepGraph._infer_project_root: the parent for a single file, the longest
common parent-directory prefix otherwise ([] is the filesystem root, the
fallback).  The empty-input case (Path.cwd in the source) is unreachable
from build, which only infers when files are present. -/
def inferProjectRoot : List PathT → PathT
  | [] => []
  | [f] => f.dropLast
  | f :: rest => inferLoop f.dropLast rest

/-- The first loop of DepGraph.build: populate the file map and the node
set. -/
def buildMapLoop (root : Option PathT) : List PathT → DepGraph → DepGraph
  | [], st => st
  | p :: rest, st =>
    let fid := getFileId root p
    buildMapLoop root rest
      { st with fileMap := ainsert st.fileMap fid p, nodes := insertNode st.nodes fid }

/-- The second loop of DepGraph.build: resolve each file's imports against
the completed file map and add the in-project edges. -/
def buildEdgeLoop (env : DEnv) : List PathT → DepGraph → DepGraph
  | [], st => st
  | p :: rest, st =>
    let fid := getFileId st.projectRoot p
    let deps := resolveLocalImports env st.projectRoot st.fileMap p
    buildEdgeLoop env rest (addDepEdges fid deps st)

/-- DepGraph.build: clears the graph, the file map and the cache, infers the
project root when absent, then runs the two loops. -/
def DepGraph.build (st : DepGraph) (env : DEnv) (files : List PathT) : DepGraph :=
  let root :=
    match st.projectRoot with
    | none => if files ≠ [] then some (inferProjectRoot files) else none
    | some r => some r
  let cleared : DepGraph := { nodes := [], edges := [], projectRoot := root, fileMap := [] }
  buildEdgeLoop env files (buildMapLoop root files cleared)

/-- The edge-removal prelude of DepGraph.add_or_update_file: the old direct
dependencies are read off (empty when the node is unknown, as
get_direct_dependencies returns) and the corresponding outgoing edges
removed. -/
def removeOutgoingEdges (st : DepGraph) (fid : FileId) : DepGraph :=
  let old_deps := if fid ∈ st.nodes then (st.edges.filter (fun e => e.1 = fid)).map Prod.snd
    else []
  if fid ∈ st.nodes then
    { st with edges := st.edges.filter (fun e => ¬ (e.1 = fid ∧ e.2 ∈ old_deps)) }
  else st

/-- DepGraph.add_or_update_file: drop the node's outgoing edges, ensure the
node and its file-map entry exist, re-resolve and re-add edges. -/
def DepGraph.addOrUpdateFile (st : DepGraph) (env : DEnv) (p : PathT) : DepGraph :=
  let fid := getFileId st.projectRoot p
  let st1 := removeOutgoingEdges st fid
  let st2 := { st1 with nodes := insertNode st1.nodes fid, fileMap := ainsert st1.fileMap fid p }
  let deps := resolveLocalImports env st2.projectRoot st2.fileMap p
  addDepEdges fid deps st2

/-- DepGraph.remove_file: drop the node, its incident edges and its file-map
entry. -/
def DepGraph.removeFile (st : DepGraph) (p : PathT) : DepGraph :=
  let fid := getFileId st.projectRoot p
  if fid ∈ st.nodes then
    { st with
        nodes := st.nodes.filter (fun n => n ≠ fid),
        edges := st.edges.filter (fun e => e.1 ≠ fid ∧ e.2 ≠ fid),
        fileMap := aerase st.fileMap fid }
  else st

/-- DepGraph.move_file: unknown source degrades to an add; a changed id is
remove-then-add; an unchanged id is a plain update. -/
def DepGraph.moveFile (st : DepGraph) (env : DEnv) (old_path new_path : PathT) : DepGraph :=
  let old_id := getFileId st.projectRoot old_path
  let new_id := getFileId st.projectRoot new_path
  if old_id ∉ st.nodes then st.addOrUpdateFile env new_path
  else if old_id ≠ new_id then (st.removeFile old_path).addOrUpdateFile env new_path
  else st.addOrUpdateFile env new_path

/-- One public DepGraph mutation, carrying the external environment active
at the time of the call. -/
inductive DOp where
  | buildOp (env : DEnv) (files : List PathT)
  | addOp (env : DEnv) (p : PathT)
  | removeOp (p : PathT)
  | moveOp (env : DEnv) (old_path new_path : PathT)

/-- Execute one DepGraph operation. -/
def dstep (st : DepGraph) : DOp → DepGraph
  | .buildOp env files => st.build env files
  | .addOp env p => st.addOrUpdateFile env p
  | .removeOp p => st.removeFile p
  | .moveOp env o n => st.moveFile env o n

/-- Execute a sequence of DepGraph operations. -/
def drun (st : DepGraph) (ops : List DOp) : DepGraph :=
  ops.foldl dstep st

/-! ## Operation sequences and invariants -/

/-- One public VectorDB operation.  get_meta_by_path and search read but
never write state; flush writes only the disk artifacts.  The state effect
of each operation is given by `vstep`. -/
inductive VOp where
  | addOp (p : String) (h : List Nat) (v : EmbVec)
  | removeOp (p : String)
  | getMetaOp (p : String)
  | getVectorOp (p : String)
  | searchOp (v : EmbVec) (top_k : Nat)
  | flushOp

/-- The state effect of one VectorDB operation. -/
def vstep (db : VectorDB) : VOp → VectorDB
  | .addOp p h v => db.add p h v
  | .removeOp p => (db.remove_by_path p).1
  | .getMetaOp _ => db
  | .getVectorOp p => (db.get_vector_by_path p).1
  | .searchOp _ _ => db
  | .flushOp => db

/-- Execute a sequence of VectorDB operations. -/
def vrun (db : VectorDB) (ops : List VOp) : VectorDB :=
  ops.foldl vstep db

/-- Mutual consistency of the two VectorDB maps: every path maps to a handle
whose metadata records that very path, and every metadata record's path maps
back to its handle.  In particular the key set of pathToFaissId equals the
projection of the paths out of meta_data. -/
def mapsConsistent (db : VectorDB) : Prop :=
  (∀ p fid, alookup db.pathToFaissId p = some fid →
    ∃ m, alookup db.meta_data fid = some m ∧ m.path = p)
  ∧ (∀ fid m, alookup db.meta_data fid = some m →
    alookup db.pathToFaissId m.path = some fid)

/-- Internal well-formedness of a VectorDB state: map consistency plus
freshness of nextFaissId over both maps. -/
def vdbWF (db : VectorDB) : Prop :=
  mapsConsistent db
  ∧ (∀ pr ∈ db.pathToFaissId, pr.2 < db.nextFaissId)
  ∧ (∀ pr ∈ db.meta_data, pr.1 < db.nextFaissId)

/-- The DepGraph node set and the file-map key set agree. -/
def nodesMatchFileMap (st : DepGraph) : Prop :=
  ∀ i : FileId, i ∈ st.nodes ↔ (alookup st.fileMap i).isSome = true

/-- Every edge joins two distinct present nodes. -/
def edgesOk (st : DepGraph) : Prop :=
  ∀ e ∈ st.edges, e.1 ∈ st.nodes ∧ e.2 ∈ st.nodes ∧ e.1 ≠ e.2

/-- Combined DepGraph invariant. -/
def graphWF (st : DepGraph) : Prop :=
  nodesMatchFileMap st ∧ edgesOk st


/-! ## Concrete instances used by counterexamples and witnesses -/

/-- Claim C3 counterexample: the state reached from a fresh store by
add "a", add "b", remove "a" is not restored by flush-then-load: the cleanup
drops the live entry of "b" because its handle 1 is not below ntotal = 1. -/
def vdbC3 : VectorDB :=
  ((((freshVDB 2).add "a" [1] [5, 5]).add "b" [2] [6, 6]).remove_by_path "a").1

/-- Environment of the C10 witness: a file of one invalid UTF-8 byte. -/
def envC10 : IdxEnv :=
  { relevant := fun _ => true, underRoot := fun _ => true,
    fs := fun _ => some [255], embed := fun _ => some [0] }

/-- Environment of the C2 counterexample, version A: file bytes "a\r\nb". -/
def envC2a : IdxEnv :=
  { relevant := fun _ => true, underRoot := fun _ => true,
    fs := fun _ => some [97, 13, 10, 98], embed := fun _ => some [3] }

/-- Environment of the C2 counterexample, version B: file bytes "a\nb". -/
def envC2b : IdxEnv :=
  { relevant := fun _ => true, underRoot := fun _ => true,
    fs := fun _ => some [97, 10, 98], embed := fun _ => some [3] }

/-- Environment of the C6 counterexample: the embedding call always fails. -/
def envC6 : IdxEnv :=
  { relevant := fun _ => true, underRoot := fun _ => true,
    fs := fun _ => some [97], embed := fun _ => none }

/-- Environment of the C6 witness: embedding calls succeed. -/
def envC6w : IdxEnv :=
  { relevant := fun _ => true, underRoot := fun _ => true,
    fs := fun _ => some [97], embed := fun _ => some [3] }

/-- Environment of the C1 counterexample and witness: readable one-byte
files, failing embedding calls. -/
def envC1 : IdxEnv :=
  { relevant := fun _ => true, underRoot := fun _ => true,
    fs := fun _ => some [97], embed := fun _ => none }

/-- A store holding a previous vector for path "x" under a different hash. -/
def vdbC1 : VectorDB := (freshVDB 1).add "x" [9] [1]

/-- File map of the C8 counterexample: a root-level helpers.py under
project root /r. -/
def fmC8 : List (FileId × PathT) :=
  [((false, ["helpers.py".toList]), [['r'], "helpers.py".toList])]

/-- Filesystem of the C8 counterexample: /r/helpers.py and /r/main.py
exist. -/
def exC8 : PathT → Bool :=
  fun p => decide (p = [['r'], "helpers.py".toList] ∨ p = [['r'], "main.py".toList])

/-- Source file of the C8 counterexample: /r/main.py. -/
def ffC8 : PathT := [['r'], "main.py".toList]

/-! ## Theorems -/

theorem alookup_aerase_self {α β : Type} [DecidableEq α] (l : List (α × β)) (k : α) :
    alookup (aerase l k) k = none := by
  induction l with
  | nil => rfl
  | cons p t ih =>
    obtain ⟨a, b⟩ := p
    by_cases h : a = k
    · simpa [aerase, h] using ih
    · simpa [aerase, alookup, h] using ih

theorem alookup_aerase_ne {α β : Type} [DecidableEq α] (l : List (α × β)) (k k' : α)
    (h : k' ≠ k) : alookup (aerase l k) k' = alookup l k' := by
  induction l with
  | nil => rfl
  | cons p t ih =>
    obtain ⟨a, b⟩ := p
    by_cases hp : a = k
    · subst hp
      have ha : a ≠ k' := fun hh => h hh.symm
      simpa [aerase, alookup, ha] using ih
    · by_cases hk : a = k'
      · subst hk
        simp [aerase, alookup, hp]
      · simpa [aerase, alookup, hp, hk] using ih

theorem alookup_append {α β : Type} [DecidableEq α] (l m : List (α × β)) (k : α) :
    alookup (l ++ m) k = ((alookup l k).orElse (fun _ => alookup m k)) := by
  induction l with
  | nil => simp [alookup, Option.orElse]
  | cons p t ih =>
    obtain ⟨a, b⟩ := p
    by_cases h : a = k
    · simp [alookup, h, Option.orElse]
    · simp [alookup, h, ih]

theorem alookup_ainsert_self {α β : Type} [DecidableEq α] (l : List (α × β)) (k : α)
    (v : β) : alookup (ainsert l k v) k = some v := by
  induction l with
  | nil => simp [ainsert, alookup]
  | cons p t ih =>
    obtain ⟨a, b⟩ := p
    by_cases hp : a = k
    · simp [ainsert, hp, alookup]
    · simp [ainsert, hp, alookup, ih]

theorem alookup_ainsert_ne {α β : Type} [DecidableEq α] (l : List (α × β)) (k k' : α)
    (v : β) (h : k' ≠ k) : alookup (ainsert l k v) k' = alookup l k' := by
  induction l with
  | nil => simp [ainsert, alookup, Ne.symm h]
  | cons p t ih =>
    obtain ⟨a, b⟩ := p
    by_cases hp : a = k
    · subst hp
      simp [ainsert, alookup, Ne.symm h]
    · simp [ainsert, hp, alookup, ih]

theorem get_meta_by_path_add (db : VectorDB) (p : String) (h : List Nat) (v : EmbVec) :
    (db.add p h v).get_meta_by_path p = some ⟨p, h⟩ := by
  unfold VectorDB.add VectorDB.get_meta_by_path
  simp [alookup_ainsert_self]

/-- Claim C4: remove_by_path returns true exactly when the id is present in
pathToFaissId before the call; afterwards the id is absent from
pathToFaissId, its handle is absent from meta_data, and its vector rows are
absent from the index. -/
theorem c4_remove_by_path_spec (db : VectorDB) (p : String) :
    ((db.remove_by_path p).2 = true ↔ (alookup db.pathToFaissId p).isSome = true)
    ∧ alookup (db.remove_by_path p).1.pathToFaissId p = none
    ∧ (∀ fid, alookup db.pathToFaissId p = some fid →
        alookup (db.remove_by_path p).1.meta_data fid = none
        ∧ ∀ v : EmbVec, (fid, v) ∉ (db.remove_by_path p).1.index) := by
  rcases ho : alookup db.pathToFaissId p with _ | fid
  · refine ⟨?_, ?_, ?_⟩
    · simp [VectorDB.remove_by_path, ho]
    · simp [VectorDB.remove_by_path, ho]
    · intro fid h
      exact Option.noConfusion h
  · refine ⟨?_, ?_, ?_⟩
    · simp [VectorDB.remove_by_path, ho]
    · simp [VectorDB.remove_by_path, ho, alookup_aerase_self]
    · intro fid' h
      injection h with h
      subst h
      refine ⟨?_, ?_⟩
      · simp [VectorDB.remove_by_path, ho, alookup_aerase_self]
      · intro v hv
        simp only [VectorDB.remove_by_path, ho] at hv
        rcases List.mem_filter.mp hv with ⟨_, hpred⟩
        simp at hpred

/-- Claim C3 (amended): flush followed by construction-time load restores the
in-memory state exactly when every handle stored in pathToFaissId is below
ntotal; the post-load stale-mapping cleanup keeps every entry in that case. -/
theorem c3_flush_load_amended (db : VectorDB)
    (h : ∀ pr ∈ db.pathToFaissId, pr.2 < db.index.length) :
    db.reload = db := by
  obtain ⟨dim, idx, meta, p2f, nxt⟩ := db
  dsimp only at h
  have hstale : p2f.filter (fun pr => decide (idx.length ≤ pr.2)) = [] := by
    rw [List.filter_eq_nil_iff]
    intro pr hpr
    simpa using Nat.not_le.mpr (h pr hpr)
  have hkeep : p2f.filter (fun pr => decide (pr.2 < idx.length)) = p2f := by
    rw [List.filter_eq_self]
    intro pr hpr
    simpa using h pr hpr
  simp [VectorDB.reload, VectorDB.construct, VectorDB.flushRecord, VectorDB.cleanupStale,
    hstale, hkeep]

/-- Claim C3 is false as stated: a reachable state whose round trip loses the
mapping of "b". -/
theorem c3_flush_load_counterexample :
    (vdbC3.get_meta_by_path "b").isSome = true
    ∧ (vdbC3.reload).get_meta_by_path "b" = none := by decide

/-- Witness for the amended C3 theorem at a concrete reachable state. -/
theorem c3_flush_load_witness :
    ((freshVDB 1).add "a" [0] [7]).reload = (freshVDB 1).add "a" [0] [7] :=
  c3_flush_load_amended ((freshVDB 1).add "a" [0] [7]) (by decide)

/-- Claim C10: a created or modified event whose file cannot be read or
cannot be decoded as UTF-8 returns without mutating the vector store and
without any embedding call. -/
theorem c10_unreadable_event_no_mutation (env : IdxEnv) (db : VectorDB) (p : String)
    (hread : (env.fs p).bind pythonReadText = none) :
    processFileEvent env db (FEvent.created p) = (db, [])
    ∧ processFileEvent env db (FEvent.modified p) = (db, []) := by
  constructor <;>
  · show processCreatedModified env db p = (db, [])
    by_cases hrel : env.relevant p = true
    · simp [processCreatedModified, hrel, hread]
    · simp [processCreatedModified, hrel]

/-- Witness for C10: processing a created event for an undecodable file
leaves a fresh store untouched. -/
theorem c10_unreadable_event_witness :
    processFileEvent envC10 (freshVDB 1) (FEvent.created "bin.dat") = (freshVDB 1, []) :=
  (c10_unreadable_event_no_mutation envC10 (freshVDB 1) "bin.dat" (by decide)).1

/-- Claim C2 is false as stated: two files with different raw bytes
("a\r\nb" vs "a\nb" — the difference being a byte of the file) receive the
same stored contentHash, because the hash input is the UTF-8 re-encoding of
the universal-newline-translated decoded text, not the raw file bytes. -/
theorem c2_hash_input_counterexample :
    envC2a.fs "f" ≠ envC2b.fs "f"
    ∧ (processFileEvent envC2a (freshVDB 1) (FEvent.modified "f")).1.get_meta_by_path "f"
      = (processFileEvent envC2b (freshVDB 1) (FEvent.modified "f")).1.get_meta_by_path "f"
    ∧ ((processFileEvent envC2a (freshVDB 1) (FEvent.modified "f")).1.get_meta_by_path "f").isSome
      = true := by decide

/-- Claim C2 (amended): for an indexed file the stored contentHash is the
digest of the UTF-8 re-encoding of the decoded, universal-newline-translated
text (so byte differences invisible after decoding and translation — e.g.
"\r\n" vs "\n" line endings, at any offset — leave it unchanged), and the
embedding input is exactly the leading 8000 characters of that translated
text. -/
theorem c2_hash_input_amended (env : IdxEnv) (db : VectorDB) (p : String)
    (bytes text : List Nat) (vec : EmbVec)
    (hfs : env.fs p = some bytes)
    (hdec : pythonReadText bytes = some text)
    (hrel : env.relevant p = true)
    (hnew : metaHashMatches db p (contentHashOf text) = false)
    (hemb : env.embed (text.take MAX_CHARS) = some vec) :
    processFileEvent env db (FEvent.modified p)
      = (((db.remove_by_path p).1).add p (contentHashOf text) vec, [text.take MAX_CHARS])
    ∧ (processFileEvent env db (FEvent.modified p)).1.get_meta_by_path p
      = some ⟨p, sha256hex (utf8Encode text)⟩ := by
  have hread : (env.fs p).bind pythonReadText = some text := by
    rw [hfs]
    exact hdec
  have h1 : processCreatedModified env db p
      = (((db.remove_by_path p).1).add p (contentHashOf text) vec, [text.take MAX_CHARS]) := by
    simp [processCreatedModified, hrel, hread, hnew, hemb]
  constructor
  · exact h1
  · show (processCreatedModified env db p).1.get_meta_by_path p = _
    rw [h1]
    exact get_meta_by_path_add _ _ _ _

/-- Witness for the amended C2 theorem: a concrete file "a\r\nb" whose
stored hash is the digest of the translated text "a\nb". -/
theorem c2_hash_input_witness :
    processFileEvent envC2a (freshVDB 1) (FEvent.modified "f")
      = ((((freshVDB 1).remove_by_path "f").1).add "f" (contentHashOf [97, 10, 98]) [3],
         [[97, 10, 98]]) :=
  (c2_hash_input_amended envC2a (freshVDB 1) "f" [97, 13, 10, 98] [97, 10, 98] [3]
    rfl (by decide) rfl (by decide) rfl).1

/-- Claim C6 is false as stated: with unchanged file bytes, when the first
modified event's embedding call failed, the second modified event performs
an embedding call again (the entry was removed and never re-added). -/
theorem c6_modified_idempotent_counterexample :
    (processFileEvent envC6
      ((processFileEvent envC6 (freshVDB 1) (FEvent.modified "a.py")).1)
      (FEvent.modified "a.py")).2 ≠ [] := by decide

/-- Claim C6 (amended): with the file bytes unchanged between two successive
modified events, and provided embedding calls succeed (so the first event
did not end in a caught embedding failure), the second event performs no
embedding call and returns the store exactly as the first event left it. -/
theorem c6_modified_idempotent_amended (env : IdxEnv) (db : VectorDB) (p : String)
    (hembed : ∀ t, (env.embed t).isSome = true) :
    processFileEvent env ((processFileEvent env db (FEvent.modified p)).1)
        (FEvent.modified p)
      = ((processFileEvent env db (FEvent.modified p)).1, []) := by
  have hPF : ∀ d : VectorDB,
      processFileEvent env d (FEvent.modified p) = processCreatedModified env d p :=
    fun _ => rfl
  rw [hPF, hPF]
  by_cases hrel : env.relevant p = true
  · rcases hr : (env.fs p).bind pythonReadText with _ | txt
    · simp [processCreatedModified, hrel, hr]
    · by_cases hm : metaHashMatches db p (contentHashOf txt) = true
      · simp [processCreatedModified, hrel, hr, hm]
      · obtain ⟨vec, hv⟩ := Option.isSome_iff_exists.mp (hembed (txt.take MAX_CHARS))
        have h1 : processCreatedModified env db p
            = (((db.remove_by_path p).1).add p (contentHashOf txt) vec,
               [txt.take MAX_CHARS]) := by
          simp [processCreatedModified, hrel, hr, hm, hv]
        rw [h1]
        have h2 : metaHashMatches (((db.remove_by_path p).1).add p (contentHashOf txt) vec)
            p (contentHashOf txt) = true := by
          simp [metaHashMatches, get_meta_by_path_add]
        simp [processCreatedModified, hrel, hr, h2]
  · simp [processCreatedModified, hrel]

/-- Witness for the amended C6 theorem at a concrete environment. -/
theorem c6_modified_idempotent_witness :
    processFileEvent envC6w ((processFileEvent envC6w (freshVDB 1) (FEvent.modified "a.py")).1)
        (FEvent.modified "a.py")
      = ((processFileEvent envC6w (freshVDB 1) (FEvent.modified "a.py")).1, []) :=
  c6_modified_idempotent_amended envC6w (freshVDB 1) "a.py" (fun _ => rfl)

/-- Claim C1 is false as stated: an embedding failure during build_index
raises out of the rebuild (the remaining file "b" is never processed), and
an embedding failure during process_file_event loses the previous entry of
the path instead of retaining it. -/
theorem c1_embed_failure_counterexample :
    buildIndex envC1 (freshVDB 1) ["a", "b"] = none
    ∧ (vdbC1.get_meta_by_path "x").isSome = true
    ∧ (processFileEvent envC1 vdbC1 (FEvent.modified "x")).1.get_meta_by_path "x" = none := by
  decide

/-- Claim C1 (amended): in process_file_event a failed embedding call is
caught — the operation does not raise and other paths are untouched — but
the event's path has already been removed from the store and is not
restored, so its previous vector is lost; in build_index a failed embedding
call on a new or changed file propagates, aborting the rebuild before the
remaining files are processed (the live store is simply never replaced). -/
theorem c1_embed_failure_amended (env : IdxEnv) (db : VectorDB) (p : String)
    (text : List Nat)
    (hrel : env.relevant p = true)
    (hread : (env.fs p).bind pythonReadText = some text)
    (hnew : metaHashMatches db p (contentHashOf text) = false)
    (hemb : env.embed (text.take MAX_CHARS) = none) :
    processFileEvent env db (FEvent.modified p) = ((db.remove_by_path p).1, [text.take MAX_CHARS])
    ∧ ∀ (snap : List (String × FileMeta)) (rest : List String) (vdb temp : VectorDB)
        (calls : List (List Nat)), alookup snap p = none →
        buildLoop env snap (p :: rest) vdb temp calls = none := by
  constructor
  · show processCreatedModified env db p = _
    simp [processCreatedModified, hrel, hread, hnew, hemb]
  · intro snap rest vdb temp calls hsnap
    have hs : snapHashMatches snap p (contentHashOf text) = false := by
      simp [snapHashMatches, hsnap]
    simp [buildLoop, hread, hs, hemb]

/-- Witness for the amended C1 theorem at a concrete store and environment. -/
theorem c1_embed_failure_witness :
    processFileEvent envC1 vdbC1 (FEvent.modified "x")
      = ((vdbC1.remove_by_path "x").1, [[97]]) :=
  (c1_embed_failure_amended envC1 vdbC1 "x" [97] rfl (by decide) (by decide) rfl).1

theorem strContains_cons (c x : Char) (s : Str) :
    strContains (x :: s) c = ((x == c) || strContains s c) := by
  simp [strContains]

theorem removeAllFuel_of_not_contains (pat : Str) (c0 : Char) (ps : Str)
    (hpat : pat = c0 :: ps) (f : Nat) (s : Str) (hs : strContains s c0 = false) :
    removeAllFuel pat f s = s := by
  induction f generalizing s with
  | zero => cases s <;> rfl
  | succ f ih =>
    cases s with
    | nil => rfl
    | cons c rest =>
      rw [strContains_cons] at hs
      have hc : (c == c0) = false := by
        cases hcc : (c == c0) <;> simp [hcc] at hs ⊢
      have hrest : strContains rest c0 = false := by
        cases hrr : strContains rest c0 <;> simp [hrr, hc] at hs ⊢
      have hpre : pat.isPrefixOf (c :: rest) = false := by
        rw [hpat]
        simp [List.isPrefixOf]
        intro hh
        subst hh
        simp at hc
      rw [removeAllFuel]
      rw [if_neg]
      · rw [ih rest hrest]
      · rintro ⟨_, hp⟩
        rw [hpre] at hp
        cases hp

theorem removeAll_of_not_contains (pat : Str) (c0 : Char) (ps : Str)
    (hpat : pat = c0 :: ps) (s : Str) (hs : strContains s c0 = false) :
    removeAll pat s = s :=
  removeAllFuel_of_not_contains pat c0 ps hpat s.length s hs

theorem stripExts_of_no_dot (imp : Str) (hdot : strContains imp '.' = false) :
    stripExts imp = imp := by
  unfold stripExts
  rw [removeAll_of_not_contains ".js".toList '.' "js".toList (by rfl) imp hdot,
    removeAll_of_not_contains ".ts".toList '.' "ts".toList (by rfl) imp hdot,
    removeAll_of_not_contains ".css".toList '.' "css".toList (by rfl) imp hdot]

theorem splitOnChar_of_not_contains (c : Char) (s : Str)
    (h : strContains s c = false) : splitOnChar c s = [s] := by
  induction s with
  | nil => rfl
  | cons x rest ih =>
    rw [strContains_cons] at h
    have hx : ¬ (x = c) := by
      intro hh
      subst hh
      simp at h
    have hrest : strContains rest c = false := by
      cases hrr : strContains rest c <;> simp [hrr] at h ⊢
    rw [splitOnChar, if_neg hx, ih hrest]

theorem parsePath_single (s : Str) (hne : s ≠ [])
    (hslash : strContains s '/' = false) (hdot : strContains s '.' = false) :
    parsePath s = (false, [s]) := by
  have hsplit := splitOnChar_of_not_contains '/' s hslash
  have hdotstr : s ≠ ['.'] := by
    intro hh
    rw [hh] at hdot
    simp [strContains] at hdot
  unfold parsePath parsePathParts
  rw [hsplit]
  have hhead : decide (s.head? = some '/') = false := by
    cases s with
    | nil => exact absurd rfl hne
    | cons x rest =>
      rw [strContains_cons] at hslash
      have : ¬ (x = '/') := by
        intro hh
        subst hh
        simp at hslash
      simp [this]
  rw [hhead]
  simp [hne, hdotstr]

theorem append_singleton_eq_singleton {α : Type} (l : List α) (a b : α)
    (h : l ++ [a] = [b]) : l = [] ∧ a = b := by
  cases l with
  | nil => simpa using h
  | cons x xs =>
    rw [List.cons_append] at h
    injection h with h1 h2
    exact absurd h2 (by simp)

/-- Claim C7: for a nonempty bare single-segment import (no dot, no slash),
the exact project-id matching strategy accepts a file id exactly when the id
is at the project root (its string form has no slash) and its stem equals
the import; in particular it never accepts an id in a subdirectory. -/
theorem c7_bare_import_root_only (imp : Str) (fid : FileId)
    (hne : imp ≠ [])
    (hslash : strContains imp '/' = false)
    (hdot : strContains imp '.' = false) :
    importMatchesFileId imp fid = true
      ↔ (containsSlashId fid = false ∧ idStem fid = imp) := by
  have hstrip : stripExts imp = imp := stripExts_of_no_dot imp hdot
  unfold importMatchesFileId
  rw [hstrip]
  by_cases hstem : idStem fid = imp
  · rw [if_pos ⟨⟨hslash, hdot⟩, hstem⟩]
    constructor
    · intro h
      refine ⟨?_, hstem⟩
      cases hcs : containsSlashId fid
      · rfl
      · rw [hcs] at h
        simp at h
    · rintro ⟨h1, _⟩
      simp [h1]
  · rw [if_neg (fun hc => hstem hc.2)]
    constructor
    · intro h
      exfalso
      have heq := of_decide_eq_true h
      rw [parsePath_single imp hne hslash hdot] at heq
      unfold idWithSuffixEmpty at heq
      have h2 : fid.2.dropLast ++ [nameStem (idName fid)] = [imp] :=
        congrArg Prod.snd heq
      have h3 := append_singleton_eq_singleton _ _ _ h2
      exact hstem h3.2
    · rintro ⟨_, h2⟩
      exact absurd h2 hstem

/-- Witness for C7: the import "helpers" matches the root-level id
"helpers.py" (and, by the same theorem, a subdirectory id is rejected). -/
theorem c7_bare_import_root_only_witness :
    importMatchesFileId "helpers".toList (false, ["helpers.py".toList]) = true
    ∧ importMatchesFileId "helpers".toList
        (false, ["subdir".toList, "helpers.py".toList]) = false := by
  constructor
  · exact (c7_bare_import_root_only "helpers".toList (false, ["helpers.py".toList])
      (by decide) (by decide) (by decide)).mpr (by decide)
  · have h := c7_bare_import_root_only "helpers".toList
      (false, ["subdir".toList, "helpers.py".toList]) (by decide) (by decide) (by decide)
    cases hm : importMatchesFileId "helpers".toList
        (false, ["subdir".toList, "helpers.py".toList])
    · rfl
    · exfalso
      rcases h.mp hm with ⟨hc, _⟩
      simp [containsSlashId] at hc

/-- Claim C8 is false as stated: the import "/helpers" begins with a slash,
yet the resolver applies no relative strategy to it and resolves it to
nothing, although the relative procedure would find the existing neighbour
/r/helpers.py. -/
theorem c8_relative_resolution_counterexample :
    resolveImportPath fmC8 exC8 "/helpers".toList ffC8 = []
    ∧ resolveRelativeImport exC8 "/helpers".toList ffC8 = [[['r'], "helpers.py".toList]]
    ∧ exC8 [['r'], "helpers.py".toList] = true := by decide

/-- Claim C8 (amended): the relative strategy is applied exactly to imports
beginning with a dot (slash-leading imports receive no relative resolution).
For a dot-leading import with d leading dots it ascends max(0, d − 1)
directory levels above the source file's directory, attempts the exact path
when the import carries a recognised source suffix and otherwise the base
name with each of .py, .ts, .js, .jsx, .tsx plus <basename>/__init__.py,
and contributes exactly the candidates that exist and are not the source
file itself; these contributions are included in the resolver's result. -/
theorem c8_relative_resolution_amended (fm : List (FileId × PathT)) (ex : PathT → Bool)
    (imp : Str) (from_file p : PathT)
    (hdot : imp.head? = some '.') :
    (p ∈ resolveRelativeImport ex imp from_file
      ↔ (p ∈ (if endsWithSrcSuffix (lstripDotSlash imp) then
              [joinPath (ascend (leadingDots imp - 1) from_file.dropLast)
                (lstripDotSlash imp)]
            else
              [ joinPath (ascend (leadingDots imp - 1) from_file.dropLast)
                  (lstripDotSlash imp ++ ".py".toList),
                joinPath (joinPath (ascend (leadingDots imp - 1) from_file.dropLast)
                  (lstripDotSlash imp)) "__init__.py".toList,
                joinPath (ascend (leadingDots imp - 1) from_file.dropLast)
                  (lstripDotSlash imp ++ ".ts".toList),
                joinPath (ascend (leadingDots imp - 1) from_file.dropLast)
                  (lstripDotSlash imp ++ ".js".toList),
                joinPath (ascend (leadingDots imp - 1) from_file.dropLast)
                  (lstripDotSlash imp ++ ".jsx".toList),
                joinPath (ascend (leadingDots imp - 1) from_file.dropLast)
                  (lstripDotSlash imp ++ ".tsx".toList) ])
          ∧ ex p = true ∧ p ≠ from_file))
    ∧ resolveRelativeImport ex imp from_file ⊆ resolveImportPath fm ex imp from_file := by
  constructor
  · unfold resolveRelativeImport
    constructor
    · intro h
      rcases List.mem_filter.mp h with ⟨h1, h2⟩
      simp only [Bool.decide_and, Bool.and_eq_true, decide_eq_true_eq] at h2
      exact ⟨h1, h2.1, h2.2⟩
    · rintro ⟨h1, h2, h3⟩
      refine List.mem_filter.mpr ⟨h1, ?_⟩
      simp [h2, h3]
  · intro q hq
    unfold resolveImportPath
    rw [if_pos hdot]
    exact List.mem_append.mpr (Or.inl (List.mem_append.mpr (Or.inl hq)))

/-- Witness for the amended C8 theorem: "./helpers" from /r/main.py resolves
relatively to the existing /r/helpers.py, which the resolver includes. -/
theorem c8_relative_resolution_witness :
    [['r'], "helpers.py".toList] ∈ resolveImportPath fmC8 exC8 "./helpers".toList ffC8 :=
  (c8_relative_resolution_amended fmC8 exC8 "./helpers".toList ffC8
    [['r'], "helpers.py".toList] (by rfl)).2 (by decide)

theorem alookup_mem {α β : Type} [DecidableEq α] (l : List (α × β)) (k : α) (v : β)
    (h : alookup l k = some v) : (k, v) ∈ l := by
  induction l with
  | nil => cases h
  | cons q t ih =>
    obtain ⟨a, b⟩ := q
    by_cases hp : a = k
    · subst hp
      simp only [alookup, if_pos rfl] at h
      injection h with h
      subst h
      exact List.mem_cons_self _ _
    · simp only [alookup, hp, if_false] at h
      exact List.mem_cons_of_mem _ (ih h)

theorem mem_ainsert {α β : Type} [DecidableEq α] (l : List (α × β)) (k : α) (v : β)
    (pr : α × β) (h : pr ∈ ainsert l k v) : pr ∈ l ∨ pr = (k, v) := by
  induction l with
  | nil =>
    simp only [ainsert, List.mem_singleton] at h
    exact Or.inr h
  | cons q t ih =>
    obtain ⟨a, b⟩ := q
    by_cases hp : a = k
    · rw [ainsert, if_pos hp] at h
      rcases List.mem_cons.mp h with h1 | h1
      · exact Or.inr h1
      · exact Or.inl (List.mem_cons_of_mem _ h1)
    · rw [ainsert, if_neg hp] at h
      rcases List.mem_cons.mp h with h1 | h1
      · exact Or.inl (by rw [h1]; exact List.mem_cons_self _ _)
      · rcases ih h1 with h2 | h2
        · exact Or.inl (List.mem_cons_of_mem _ h2)
        · exact Or.inr h2

theorem remove_lookup_self_none (db : VectorDB) (p : String) :
    alookup (db.remove_by_path p).1.pathToFaissId p = none := by
  unfold VectorDB.remove_by_path
  rcases ho : alookup db.pathToFaissId p with _ | fid
  · simpa using ho
  · simp [alookup_aerase_self]

theorem vdbWF_fresh (dim : Nat) : vdbWF (freshVDB dim) := by
  refine ⟨⟨?_, ?_⟩, ?_, ?_⟩
  · intro p fid h
    cases h
  · intro fid m h
    cases h
  · intro pr hpr
    cases hpr
  · intro pr hpr
    cases hpr

theorem vdbWF_of_erase (db : VectorDB) (p : String) (fid : Nat)
    (h : vdbWF db) (hl : alookup db.pathToFaissId p = some fid)
    (idx' : List (Nat × EmbVec)) :
    vdbWF { db with
        index := idx',
        meta_data := aerase db.meta_data fid,
        pathToFaissId := aerase db.pathToFaissId p } := by
  obtain ⟨⟨hc1, hc2⟩, hb1, hb2⟩ := h
  refine ⟨⟨?_, ?_⟩, ?_, ?_⟩
  · intro p' fid' hp'
    dsimp only at hp' ⊢
    have hne : p' ≠ p := by
      intro hh
      rw [hh, alookup_aerase_self] at hp'
      cases hp'
    rw [alookup_aerase_ne _ _ _ hne] at hp'
    obtain ⟨m', hm', hpath⟩ := hc1 p' fid' hp'
    have hfid : fid' ≠ fid := by
      intro hh
      obtain ⟨m0, hm0, hpath0⟩ := hc1 p fid hl
      rw [hh, hm0] at hm'
      injection hm' with hmm
      rw [hmm, hpath] at hpath0
      exact hne hpath0
    refine ⟨m', ?_, hpath⟩
    rw [alookup_aerase_ne _ _ _ hfid]
    exact hm'
  · intro fid' m' hm'
    dsimp only at hm' ⊢
    have hfid : fid' ≠ fid := by
      intro hh
      rw [hh, alookup_aerase_self] at hm'
      cases hm'
    rw [alookup_aerase_ne _ _ _ hfid] at hm'
    have hback := hc2 fid' m' hm'
    have hpne : m'.path ≠ p := by
      intro hh
      rw [hh, hl] at hback
      injection hback with hb
      exact hfid hb.symm
    rw [alookup_aerase_ne _ _ _ hpne]
    exact hback
  · intro pr hpr
    exact hb1 pr (List.mem_filter.mp hpr).1
  · intro pr hpr
    exact hb2 pr (List.mem_filter.mp hpr).1

theorem vdbWF_remove (db : VectorDB) (p : String) (h : vdbWF db) :
    vdbWF (db.remove_by_path p).1 := by
  unfold VectorDB.remove_by_path
  rcases ho : alookup db.pathToFaissId p with _ | fid
  · exact h
  · dsimp only
    exact vdbWF_of_erase db p fid h ho _

theorem vdbWF_insert_fresh (db1 : VectorDB) (p : String) (hsh : List Nat) (v : EmbVec)
    (h : vdbWF db1) (hnone : alookup db1.pathToFaissId p = none) :
    vdbWF { db1 with
      nextFaissId := db1.nextFaissId + 1,
      index := db1.index ++ [(db1.nextFaissId, v)],
      meta_data := ainsert db1.meta_data db1.nextFaissId ⟨p, hsh⟩,
      pathToFaissId := ainsert db1.pathToFaissId p db1.nextFaissId } := by
  obtain ⟨⟨hc1, hc2⟩, hb1, hb2⟩ := h
  refine ⟨⟨?_, ?_⟩, ?_, ?_⟩
  · intro p' fid' hp'
    dsimp only at hp' ⊢
    by_cases hpp : p' = p
    · subst hpp
      rw [alookup_ainsert_self] at hp'
      injection hp' with hf
      subst hf
      exact ⟨⟨p', hsh⟩, by rw [alookup_ainsert_self], rfl⟩
    · rw [alookup_ainsert_ne _ _ _ _ hpp] at hp'
      obtain ⟨m', hm', hpath⟩ := hc1 p' fid' hp'
      have hfid : fid' ≠ db1.nextFaissId :=
        Nat.ne_of_lt (hb1 _ (alookup_mem _ _ _ hp'))
      refine ⟨m', ?_, hpath⟩
      rw [alookup_ainsert_ne _ _ _ _ hfid]
      exact hm'
  · intro fid' m' hm'
    dsimp only at hm' ⊢
    by_cases hff : fid' = db1.nextFaissId
    · subst hff
      rw [alookup_ainsert_self] at hm'
      injection hm' with hm
      subst hm
      show alookup (ainsert db1.pathToFaissId p db1.nextFaissId) p = some db1.nextFaissId
      rw [alookup_ainsert_self]
    · rw [alookup_ainsert_ne _ _ _ _ hff] at hm'
      have hback := hc2 fid' m' hm'
      have hpne : m'.path ≠ p := by
        intro hh
        rw [hh, hnone] at hback
        cases hback
      rw [alookup_ainsert_ne _ _ _ _ hpne]
      exact hback
  · intro pr hpr
    dsimp only at hpr
    rcases mem_ainsert _ _ _ _ hpr with h1 | h1
    · exact Nat.lt_succ_of_lt (hb1 pr h1)
    · rw [h1]
      exact Nat.lt_succ_self _
  · intro pr hpr
    dsimp only at hpr
    rcases mem_ainsert _ _ _ _ hpr with h1 | h1
    · exact Nat.lt_succ_of_lt (hb2 pr h1)
    · rw [h1]
      exact Nat.lt_succ_self _

theorem vdbWF_add (db : VectorDB) (p : String) (hsh : List Nat) (v : EmbVec)
    (h : vdbWF db) : vdbWF (db.add p hsh v) := by
  have h1 : vdbWF
      (if (alookup db.pathToFaissId p).isSome then (db.remove_by_path p).1 else db) := by
    split
    · exact vdbWF_remove db p h
    · exact h
  have hnone : alookup
      (if (alookup db.pathToFaissId p).isSome then
        (db.remove_by_path p).1 else db).pathToFaissId p = none := by
    split
    · exact remove_lookup_self_none db p
    · rename_i hn
      exact Option.not_isSome_iff_eq_none.mp hn
  exact vdbWF_insert_fresh _ p hsh v h1 hnone

theorem vdbWF_getVector (db : VectorDB) (p : String) (h : vdbWF db) :
    vdbWF (db.get_vector_by_path p).1 := by
  unfold VectorDB.get_vector_by_path
  rcases ho : alookup db.pathToFaissId p with _ | fid
  · exact h
  · dsimp only
    split
    · split
      · exact vdbWF_of_erase db p fid h ho db.index
      · cases hg : (db.index.get? fid).map Prod.snd with
        | none =>
          simp only [hg]
          exact h
        | some vv =>
          simp only [hg]
          split
          · exact h
          · exact h
    · exact h

theorem vdbWF_step (db : VectorDB) (op : VOp) (h : vdbWF db) : vdbWF (vstep db op) := by
  cases op with
  | addOp p hsh v => exact vdbWF_add db p hsh v h
  | removeOp p => exact vdbWF_remove db p h
  | getMetaOp p => exact h
  | getVectorOp p => exact vdbWF_getVector db p h
  | searchOp v k => exact h
  | flushOp => exact h

theorem vdbWF_run (db : VectorDB) (ops : List VOp) (h : vdbWF db) : vdbWF (vrun db ops) := by
  induction ops generalizing db with
  | nil => exact h
  | cons op rest ih => exact ih (vstep db op) (vdbWF_step db op h)

/-- Claim C5: in every VectorDB state reachable from a freshly initialised
store by any sequence of add, remove_by_path, get_meta_by_path,
get_vector_by_path, search and flush, the maps are mutually consistent: each
id of pathToFaissId maps to a handle whose metadata records that id, and the
key set of pathToFaissId coincides with the ids projected from meta_data. -/
theorem c5_maps_consistent_reachable (dim : Nat) (ops : List VOp) :
    mapsConsistent (vrun (freshVDB dim) ops) :=
  (vdbWF_run (freshVDB dim) ops (vdbWF_fresh dim)).1

theorem getFileId_inj (root : Option PathT) (p q : PathT)
    (h : getFileId root p = getFileId root q) : p = q := by
  unfold getFileId at h
  cases root with
  | none =>
    injection h
  | some r =>
    dsimp only at h
    by_cases hp : r.isPrefixOf p <;> by_cases hq : r.isPrefixOf q
    · rw [if_pos hp, if_pos hq] at h
      injection h with h1 h2
      obtain ⟨tp, htp⟩ := List.isPrefixOf_iff_prefix.mp hp
      obtain ⟨tq, htq⟩ := List.isPrefixOf_iff_prefix.mp hq
      have hdp : p.drop r.length = tp := by
        rw [← htp]
        exact List.drop_left r tp
      have hdq : q.drop r.length = tq := by
        rw [← htq]
        exact List.drop_left r tq
      rw [hdp, hdq] at h2
      rw [← htp, ← htq, h2]
    · rw [if_pos hp, if_neg hq] at h
      injection h with h1 h2
      exact Bool.noConfusion h1
    · rw [if_neg hp, if_pos hq] at h
      injection h with h1 h2
      exact Bool.noConfusion h1
    · rw [if_neg hp, if_neg hq] at h
      injection h

theorem resolveRelativeImport_ne_self (ex : PathT → Bool) (imp : Str)
    (from_file q : PathT) (h : q ∈ resolveRelativeImport ex imp from_file) :
    q ≠ from_file := by
  unfold resolveRelativeImport at h
  rcases List.mem_filter.mp h with ⟨_, hpred⟩
  simp only [Bool.decide_and, Bool.and_eq_true, decide_eq_true_eq] at hpred
  exact hpred.2

theorem resolveImportPath_ne_self (fm : List (FileId × PathT)) (ex : PathT → Bool)
    (imp : Str) (from_file q : PathT)
    (h : q ∈ resolveImportPath fm ex imp from_file) : q ≠ from_file := by
  unfold resolveImportPath at h
  rcases List.mem_append.mp h with h1 | h3
  · rcases List.mem_append.mp h1 with h1 | h2
    · split at h1
      · exact resolveRelativeImport_ne_self ex imp from_file q h1
      · cases h1
    · rcases List.mem_map.mp h2 with ⟨pr, hpr, hq⟩
      rcases List.mem_filter.mp hpr with ⟨_, hpred⟩
      simp only [Bool.decide_and, Bool.and_eq_true, decide_eq_true_eq] at hpred
      rw [← hq]
      exact hpred.1
  · split at h3
    · rcases List.mem_map.mp h3 with ⟨pr, hpr, hq⟩
      rcases List.mem_filter.mp hpr with ⟨_, hpred⟩
      simp only [Bool.decide_and, Bool.and_eq_true, decide_eq_true_eq] at hpred
      rw [← hq]
      exact hpred.1
    · cases h3

theorem resolveLocalImports_ne_self (env : DEnv) (root : Option PathT)
    (fm : List (FileId × PathT)) (p q : PathT)
    (h : q ∈ resolveLocalImports env root fm p) : q ≠ p := by
  unfold resolveLocalImports at h
  cases root with
  | none => cases h
  | some r =>
    rcases List.mem_flatten.mp h with ⟨l, hl, hq⟩
    rcases List.mem_map.mp hl with ⟨imp, _, hres⟩
    rw [← hres] at hq
    exact resolveImportPath_ne_self fm env.pathExists imp p q hq

theorem mem_insertNode (l : List FileId) (x y : FileId) :
    x ∈ insertNode l y ↔ (x ∈ l ∨ x = y) := by
  unfold insertNode
  split
  · rename_i hy
    constructor
    · exact Or.inl
    · rintro (h | h)
      · exact h
      · rw [h]
        exact hy
  · simp [List.mem_append]

theorem insertNode_of_mem (l : List FileId) (y : FileId) (h : y ∈ l) :
    insertNode l y = l := by
  unfold insertNode
  rw [if_pos h]

theorem graphWF_addEdgeNX (st : DepGraph) (u v : FileId) (h : graphWF st)
    (hu : (alookup st.fileMap u).isSome = true)
    (hv : (alookup st.fileMap v).isSome = true)
    (huv : u ≠ v) : graphWF (addEdgeNX st u v) := by
  obtain ⟨hn, he⟩ := h
  have hun : u ∈ st.nodes := (hn u).mpr hu
  have hvn : v ∈ st.nodes := (hn v).mpr hv
  have hnodes : (addEdgeNX st u v).nodes = st.nodes := by
    show insertNode (insertNode st.nodes u) v = st.nodes
    rw [insertNode_of_mem _ _ hun]
    exact insertNode_of_mem _ _ hvn
  constructor
  · intro i
    rw [hnodes]
    exact hn i
  · intro e hee
    rw [hnodes]
    have hcases : e ∈ st.edges ∨ e = (u, v) := by
      have hee2 : e ∈ (if (u, v) ∈ st.edges then st.edges else st.edges ++ [(u, v)]) := hee
      split at hee2
      · exact Or.inl hee2
      · rcases List.mem_append.mp hee2 with h1 | h1
        · exact Or.inl h1
        · exact Or.inr (List.mem_singleton.mp h1)
    rcases hcases with h1 | h1
    · exact he e h1
    · rw [h1]
      exact ⟨hun, hvn, huv⟩

theorem addDepEdges_fields (sid : FileId) (ds : List PathT) (st : DepGraph) :
    (addDepEdges sid ds st).fileMap = st.fileMap
    ∧ (addDepEdges sid ds st).projectRoot = st.projectRoot := by
  induction ds generalizing st with
  | nil => exact ⟨rfl, rfl⟩
  | cons d rest ih =>
    unfold addDepEdges
    dsimp only
    split
    · exact ih (addEdgeNX st sid (getFileId st.projectRoot d))
    · exact ih st

theorem graphWF_addDepEdges (sid : FileId) (ds : List PathT) (st : DepGraph)
    (h : graphWF st) (hs : (alookup st.fileMap sid).isSome = true)
    (hd : ∀ d ∈ ds, getFileId st.projectRoot d ≠ sid) :
    graphWF (addDepEdges sid ds st) := by
  induction ds generalizing st with
  | nil => exact h
  | cons d rest ih =>
    unfold addDepEdges
    dsimp only
    split
    · rename_i hdep
      apply ih
      · exact graphWF_addEdgeNX st sid (getFileId st.projectRoot d) h hs hdep
          (Ne.symm (hd d (List.mem_cons_self d rest)))
      · exact hs
      · intro d' hd'
        exact hd d' (List.mem_cons_of_mem d hd')
    · exact ih st h hs (fun d' hd' => hd d' (List.mem_cons_of_mem d hd'))

theorem nodesKeys_insert_pair (st : DepGraph) (fid : FileId) (p : PathT)
    (h : nodesMatchFileMap st) :
    nodesMatchFileMap { st with
      nodes := insertNode st.nodes fid, fileMap := ainsert st.fileMap fid p } := by
  intro i
  show i ∈ insertNode st.nodes fid ↔ (alookup (ainsert st.fileMap fid p) i).isSome = true
  by_cases hip : i = fid
  · rw [hip, alookup_ainsert_self]
    constructor
    · intro _
      rfl
    · intro _
      exact (mem_insertNode _ _ _).mpr (Or.inr rfl)
  · rw [mem_insertNode, alookup_ainsert_ne _ _ _ _ hip]
    constructor
    · rintro (h1 | h1)
      · exact (h i).mp h1
      · exact absurd h1 hip
    · intro h1
      exact Or.inl ((h i).mpr h1)

theorem edgesOk_insert_pair (st : DepGraph) (fid : FileId) (fm' : List (FileId × PathT))
    (h : edgesOk st) :
    edgesOk { st with nodes := insertNode st.nodes fid, fileMap := fm' } := by
  intro e hee
  obtain ⟨h1, h2, h3⟩ := h e hee
  exact ⟨(mem_insertNode _ _ _).mpr (Or.inl h1), (mem_insertNode _ _ _).mpr (Or.inl h2), h3⟩

theorem graphWF_filter_edges (st : DepGraph) (f : FileId × FileId → Bool) (h : graphWF st) :
    graphWF { st with edges := st.edges.filter f } := by
  obtain ⟨hn, he⟩ := h
  refine ⟨hn, ?_⟩
  intro e hee
  exact he e (List.mem_filter.mp hee).1

theorem removeOutgoingEdges_fields (st : DepGraph) (fid : FileId) :
    (removeOutgoingEdges st fid).nodes = st.nodes
    ∧ (removeOutgoingEdges st fid).fileMap = st.fileMap
    ∧ (removeOutgoingEdges st fid).projectRoot = st.projectRoot := by
  unfold removeOutgoingEdges
  dsimp only
  split <;> exact ⟨rfl, rfl, rfl⟩

theorem graphWF_removeOutgoingEdges (st : DepGraph) (fid : FileId) (h : graphWF st) :
    graphWF (removeOutgoingEdges st fid) := by
  unfold removeOutgoingEdges
  dsimp only
  split
  · exact graphWF_filter_edges st _ h
  · exact h

theorem graphWF_addOrUpdateFile (st : DepGraph) (env : DEnv) (p : PathT)
    (h : graphWF st) : graphWF (st.addOrUpdateFile env p) := by
  unfold DepGraph.addOrUpdateFile
  dsimp only
  obtain ⟨hf1, hf2, hf3⟩ := removeOutgoingEdges_fields st (getFileId st.projectRoot p)
  have h1 := graphWF_removeOutgoingEdges st (getFileId st.projectRoot p) h
  apply graphWF_addDepEdges
  · exact ⟨nodesKeys_insert_pair _ _ _ h1.1, edgesOk_insert_pair _ _ _ h1.2⟩
  · show (alookup (ainsert (removeOutgoingEdges st (getFileId st.projectRoot p)).fileMap
      (getFileId st.projectRoot p) p) (getFileId st.projectRoot p)).isSome = true
    rw [alookup_ainsert_self]
    rfl
  · intro d hd heq
    have hne := resolveLocalImports_ne_self env _ _ p d hd
    apply hne
    have hroot : ({ removeOutgoingEdges st (getFileId st.projectRoot p) with
        nodes := insertNode (removeOutgoingEdges st (getFileId st.projectRoot p)).nodes
          (getFileId st.projectRoot p),
        fileMap := ainsert (removeOutgoingEdges st (getFileId st.projectRoot p)).fileMap
          (getFileId st.projectRoot p) p } : DepGraph).projectRoot = st.projectRoot := hf3
    rw [hroot] at heq
    exact getFileId_inj st.projectRoot d p heq

theorem graphWF_removeFile (st : DepGraph) (p : PathT) (h : graphWF st) :
    graphWF (st.removeFile p) := by
  obtain ⟨hn, he⟩ := h
  unfold DepGraph.removeFile
  dsimp only
  split
  · constructor
    · intro i
      show i ∈ st.nodes.filter (fun n => n ≠ getFileId st.projectRoot p)
        ↔ (alookup (aerase st.fileMap (getFileId st.projectRoot p)) i).isSome = true
      by_cases hif : i = getFileId st.projectRoot p
      · rw [hif, alookup_aerase_self]
        constructor
        · intro hmem
          have hpred := (List.mem_filter.mp hmem).2
          simp at hpred
        · intro hmem
          simp at hmem
      · rw [alookup_aerase_ne _ _ _ hif]
        constructor
        · intro hmem
          exact (hn i).mp (List.mem_filter.mp hmem).1
        · intro hmem
          exact List.mem_filter.mpr ⟨(hn i).mpr hmem, by simp [hif]⟩
    · intro e hee
      have hmf := List.mem_filter.mp hee
      obtain ⟨h1, h2, h3⟩ := he e hmf.1
      have hpred := hmf.2
      simp only [Bool.decide_and, Bool.and_eq_true, decide_eq_true_eq] at hpred
      refine ⟨?_, ?_, h3⟩
      · exact List.mem_filter.mpr ⟨h1, by simp [hpred.1]⟩
      · exact List.mem_filter.mpr ⟨h2, by simp [hpred.2]⟩
  · exact ⟨hn, he⟩

theorem graphWF_moveFile (st : DepGraph) (env : DEnv) (old_path new_path : PathT)
    (h : graphWF st) : graphWF (st.moveFile env old_path new_path) := by
  unfold DepGraph.moveFile
  dsimp only
  split
  · exact graphWF_addOrUpdateFile _ _ _ h
  · split
    · exact graphWF_addOrUpdateFile _ _ _ (graphWF_removeFile _ _ h)
    · exact graphWF_addOrUpdateFile _ _ _ h

theorem buildMapLoop_fields (root : Option PathT) (files : List PathT) (st : DepGraph) :
    (buildMapLoop root files st).edges = st.edges
    ∧ (buildMapLoop root files st).projectRoot = st.projectRoot := by
  induction files generalizing st with
  | nil => exact ⟨rfl, rfl⟩
  | cons p rest ih =>
    unfold buildMapLoop
    exact ih _

theorem buildMapLoop_nodesKeys (root : Option PathT) (files : List PathT) (st : DepGraph)
    (h : nodesMatchFileMap st) : nodesMatchFileMap (buildMapLoop root files st) := by
  induction files generalizing st with
  | nil => exact h
  | cons p rest ih =>
    unfold buildMapLoop
    exact ih _ (nodesKeys_insert_pair st (getFileId root p) p h)

theorem buildMapLoop_keep (root : Option PathT) (files : List PathT) (st : DepGraph)
    (k : FileId) (h : (alookup st.fileMap k).isSome = true) :
    (alookup (buildMapLoop root files st).fileMap k).isSome = true := by
  induction files generalizing st with
  | nil => exact h
  | cons p rest ih =>
    unfold buildMapLoop
    apply ih
    show (alookup (ainsert st.fileMap (getFileId root p) p) k).isSome = true
    by_cases hk : k = getFileId root p
    · rw [hk, alookup_ainsert_self]
      rfl
    · rw [alookup_ainsert_ne _ _ _ _ hk]
      exact h

theorem buildMapLoop_mem (root : Option PathT) (files : List PathT) (st : DepGraph)
    (p : PathT) (hp : p ∈ files) :
    (alookup (buildMapLoop root files st).fileMap (getFileId root p)).isSome = true := by
  induction files generalizing st with
  | nil => cases hp
  | cons q rest ih =>
    unfold buildMapLoop
    rcases List.mem_cons.mp hp with h1 | h1
    · subst h1
      apply buildMapLoop_keep
      show (alookup (ainsert st.fileMap (getFileId root p) p) (getFileId root p)).isSome = true
      rw [alookup_ainsert_self]
      rfl
    · exact ih _ h1

theorem graphWF_buildEdgeLoop (env : DEnv) (files : List PathT) (st : DepGraph)
    (h : graphWF st)
    (hmem : ∀ p ∈ files, (alookup st.fileMap (getFileId st.projectRoot p)).isSome = true) :
    graphWF (buildEdgeLoop env files st) := by
  induction files generalizing st with
  | nil => exact h
  | cons p rest ih =>
    unfold buildEdgeLoop
    have hfm := addDepEdges_fields (getFileId st.projectRoot p)
      (resolveLocalImports env st.projectRoot st.fileMap p) st
    apply ih
    · apply graphWF_addDepEdges _ _ _ h (hmem p (List.mem_cons_self p rest))
      intro d hd heq
      exact resolveLocalImports_ne_self env st.projectRoot st.fileMap p d hd
        (getFileId_inj st.projectRoot d p heq)
    · intro q hq
      rw [hfm.1, hfm.2]
      exact hmem q (List.mem_cons_of_mem p hq)

theorem graphWF_build (st : DepGraph) (env : DEnv) (files : List PathT) :
    graphWF (st.build env files) := by
  unfold DepGraph.build
  dsimp only
  apply graphWF_buildEdgeLoop
  · constructor
    · apply buildMapLoop_nodesKeys
      intro i
      constructor
      · intro hi
        cases hi
      · intro hi
        simp [alookup] at hi
    · intro e he
      rw [(buildMapLoop_fields _ files _).1] at he
      cases he
  · intro p hp
    rw [(buildMapLoop_fields _ files _).2]
    exact buildMapLoop_mem _ files _ p hp

theorem graphWF_initial (root : Option PathT) : graphWF (DepGraph.initial root) := by
  constructor
  · intro i
    constructor
    · intro hi
      cases hi
    · intro hi
      simp [alookup] at hi
  · intro e he
    cases he

theorem graphWF_dstep (st : DepGraph) (op : DOp) (h : graphWF st) : graphWF (dstep st op) := by
  cases op with
  | buildOp env files => exact graphWF_build st env files
  | addOp env p => exact graphWF_addOrUpdateFile st env p h
  | removeOp p => exact graphWF_removeFile st p h
  | moveOp env o n => exact graphWF_moveFile st env o n h

/-- Claim C9: in every DependencyGraph state reachable by any sequence of
build, add_or_update_file, remove_file and move_file from a fresh graph,
the node set coincides with the file-map key set and every edge joins two
distinct present nodes (edges to ids outside the file map are dropped, and
no self-edge is ever created). -/
theorem c9_dep_graph_edge_invariant (root : Option PathT) (ops : List DOp) :
    graphWF (drun (DepGraph.initial root) ops) := by
  have hrun : ∀ st : DepGraph, graphWF st → graphWF (drun st ops) := by
    induction ops with
    | nil => exact fun st h => h
    | cons op rest ih => exact fun st h => ih (dstep st op) (graphWF_dstep st op h)
  exact hrun _ (graphWF_initial root)
